import Mathlib

set_option linter.unusedVariables false

/-!
Shallow embedding of the console-log subsystem of src/fwk_ec_debugfs.c:
the circular log buffer (struct circ_buf with the linux circ_buf.h index
macros), the acquisition work cycle fwk_ec_console_log_work, the reader
fwk_ec_console_log_read, and the panic notifier fwk_ec_debugfs_panic_event.

Machine integers are modelled as Nat/Int.  The C macros mask with
(size - 1) on two-complement int values; for a power-of-two size and
cursors in [0, size) that mask is exactly the Euclidean remainder, which
is what the definitions below use (Int.emod for CIRC_CNT, whose argument
may be negative, Nat.mod elsewhere, where the argument is non-negative).
-/

/-- LOG_SHIFT from the source. -/
def LOG_SHIFT : Nat := 14

/-- LOG_SIZE = 1 << LOG_SHIFT = 16384. -/
def LOG_SIZE : Nat := 16384

theorem LOG_SIZE_eq_shift : LOG_SIZE = 1 <<< LOG_SHIFT := by decide

/-- CIRC_CNT(head, tail, size) = (head - tail) & (size - 1): the number of
valid bytes in the buffer.  The subtraction happens on C ints, so it is
modelled on Int with Euclidean remainder. -/
def CIRC_CNT (head tail size : Nat) : Nat :=
  (((head : Int) - (tail : Int)) % (size : Int)).toNat

/-- CIRC_SPACE(head, tail, size) = CIRC_CNT(tail, head + 1, size): the number
of free slots the writer may still fill. -/
def CIRC_SPACE (head tail size : Nat) : Nat :=
  CIRC_CNT tail (head + 1) size

/-- CIRC_CNT_TO_END(head, tail, size): the run of valid bytes starting at
tail that does not wrap past the physical end of the storage. -/
def CIRC_CNT_TO_END (head tail size : Nat) : Nat :=
  let e := size - tail
  let n := (head + e) % size
  if n < e then n else e

/-- CIRC_ADD(idx, size, value) = ((idx) + (value)) & ((size) - 1), from the
source file. -/
def CIRC_ADD (idx size value : Nat) : Nat :=
  (idx + value) % size

/-- Characterization of Nat remainder for arguments below twice the modulus. -/
theorem mod_two_intervals (x size : Nat) (h : x < 2 * size) :
    x % size = if x < size then x else x - size := by
  rcases lt_or_le x size with h1 | h1
  · rw [Nat.mod_eq_of_lt h1, if_pos h1]
  · rw [if_neg (by omega), Nat.mod_eq_sub_mod h1, Nat.mod_eq_of_lt (by omega)]

/-- Characterization of CIRC_CNT on in-range cursors (the second cursor may
equal size, as happens inside CIRC_SPACE). -/
theorem CIRC_CNT_eq (a b size : Nat) (ha : a < size) (hb : b ≤ size) :
    CIRC_CNT a b size = if b ≤ a then a - b else a + size - b := by
  unfold CIRC_CNT
  rcases le_or_lt b a with h | h
  · rw [Int.emod_eq_of_lt (by omega) (by omega)]
    rw [if_pos h]
    omega
  · have h5 : ((a : Int) - b + (size : Int) * 1) % (size : Int)
        = ((a : Int) - b) % (size : Int) :=
      Int.add_mul_emod_self_left ((a : Int) - b) (size : Int) 1
    have h6 : ((a : Int) - b) % (size : Int) = ((a : Int) - b + size) % (size : Int) := by
      rw [← h5]; ring_nf
    rw [h6, Int.emod_eq_of_lt (by omega) (by omega), if_neg (by omega)]
    omega

/-- CIRC_CNT is at most size - 1 on in-range cursors. -/
theorem CIRC_CNT_le (a b size : Nat) (ha : a < size) (hb : b < size) :
    CIRC_CNT a b size ≤ size - 1 := by
  rw [CIRC_CNT_eq a b size ha (by omega)]
  split <;> omega

/-- The buffer is empty exactly when the cursors coincide. -/
theorem CIRC_CNT_eq_zero_iff (a b size : Nat) (ha : a < size) (hb : b < size) :
    CIRC_CNT a b size = 0 ↔ a = b := by
  rw [CIRC_CNT_eq a b size ha (by omega)]
  split <;> omega

/-- Count and space always partition the size - 1 usable slots. -/
theorem CIRC_CNT_add_SPACE (h t size : Nat) (hh : h < size) (ht : t < size) :
    CIRC_CNT h t size + CIRC_SPACE h t size = size - 1 := by
  unfold CIRC_SPACE
  rw [CIRC_CNT_eq h t size hh (by omega), CIRC_CNT_eq t (h + 1) size ht (by omega)]
  split <;> split <;> omega

/-- Characterization of CIRC_ADD for a displacement of at most size. -/
theorem CIRC_ADD_eq (idx size v : Nat) (h1 : idx < size) (h2 : v ≤ size) :
    CIRC_ADD idx size v = if idx + v < size then idx + v else idx + v - size := by
  unfold CIRC_ADD
  exact mod_two_intervals (idx + v) size (by omega)

/-- CIRC_ADD keeps the cursor in range. -/
theorem CIRC_ADD_lt (idx size v : Nat) (h1 : idx < size) (h2 : v ≤ size) :
    CIRC_ADD idx size v < size := by
  rw [CIRC_ADD_eq idx size v h1 h2]
  split <;> omega

/-- CIRC_CNT_TO_END is the valid count clipped at the physical end of the
storage. -/
theorem CIRC_CNT_TO_END_eq (h t size : Nat) (hh : h < size) (ht : t < size) :
    CIRC_CNT_TO_END h t size = min (CIRC_CNT h t size) (size - t) := by
  unfold CIRC_CNT_TO_END
  rw [CIRC_CNT_eq h t size hh (by omega)]
  have he : (h + (size - t)) % size
      = if h + (size - t) < size then h + (size - t) else h + (size - t) - size :=
    mod_two_intervals _ _ (by omega)
  simp only []
  rw [he]
  split <;> split <;> split <;> omega

/-- struct circ_buf: storage plus head (next write) and tail (next read)
cursors.  The byte storage is modelled as a total function on indices; the
driver only ever touches indices below LOG_SIZE. -/
structure CircBuf where
  buf : Nat → Nat
  head : Nat
  tail : Nat

/-- The log buffer as created by fwk_ec_create_console_log: zeroed storage,
head = 0, tail = 0. -/
def logInit : CircBuf := ⟨fun _ => 0, 0, 0⟩


/-- Effect of one iteration of the byte-copy loop body on the cursors:
cb->buf[cb->head] = ec_buffer[idx]; cb->head = CIRC_ADD(cb->head, size, 1). -/
theorem write_step (size h t : Nat) (hh : h < size) (ht : t < size)
    (hs : 0 < CIRC_SPACE h t size) :
    CIRC_ADD h size 1 < size ∧
    CIRC_CNT (CIRC_ADD h size 1) t size = CIRC_CNT h t size + 1 ∧
    CIRC_SPACE (CIRC_ADD h size 1) t size = CIRC_SPACE h t size - 1 := by
  have hcnt := CIRC_CNT_eq h t size hh (by omega)
  have s0 : CIRC_SPACE h t size = CIRC_CNT t (h + 1) size := rfl
  have c0 := CIRC_CNT_eq t (h + 1) size ht (by omega)
  rw [s0, c0] at hs
  rcases lt_or_le (h + 1) size with hc | hc
  · have ha : CIRC_ADD h size 1 = h + 1 := by
      rw [CIRC_ADD_eq h size 1 hh (by omega)]
      exact if_pos hc
    rw [ha]
    have c1 := CIRC_CNT_eq (h + 1) t size hc (by omega)
    have s1 : CIRC_SPACE (h + 1) t size = CIRC_CNT t (h + 1 + 1) size := rfl
    have c2 := CIRC_CNT_eq t (h + 1 + 1) size ht (by omega)
    rw [c1, s1, c2, hcnt, s0, c0]
    refine ⟨by omega, ?_, ?_⟩ <;> · split_ifs at hs ⊢ <;> omega
  · have hq : h + 1 = size := by omega
    have ha : CIRC_ADD h size 1 = 0 := by
      rw [CIRC_ADD_eq h size 1 hh (by omega), if_neg (by omega)]
      omega
    rw [ha]
    have c1 := CIRC_CNT_eq 0 t size (by omega) (by omega)
    have s1 : CIRC_SPACE 0 t size = CIRC_CNT t 1 size := rfl
    have c2 := CIRC_CNT_eq t 1 size ht (by omega)
    rw [c1, s1, c2, hcnt, s0, c0]
    refine ⟨by omega, ?_, ?_⟩ <;> · split_ifs at hs ⊢ <;> omega

/-- Effect of advancing the tail by a drained amount r ≤ CIRC_CNT. -/
theorem drain_step (size h t r : Nat) (hh : h < size) (ht : t < size)
    (hr : r ≤ CIRC_CNT h t size) :
    CIRC_ADD t size r < size ∧
    CIRC_CNT h (CIRC_ADD t size r) size = CIRC_CNT h t size - r := by
  have hc := CIRC_CNT_eq h t size hh (by omega)
  have hrs : r ≤ size := by rw [hc] at hr; split at hr <;> omega
  rw [hc] at hr
  rcases lt_or_le (t + r) size with hcs | hcs
  · have ha : CIRC_ADD t size r = t + r := by
      rw [CIRC_ADD_eq t size r ht hrs]
      exact if_pos hcs
    rw [ha]
    have c2 := CIRC_CNT_eq h (t + r) size hh (by omega)
    rw [c2, hc]
    refine ⟨by omega, ?_⟩
    split_ifs at hr ⊢ <;> omega
  · have ha : CIRC_ADD t size r = t + r - size := by
      rw [CIRC_ADD_eq t size r ht hrs]
      exact if_neg (by omega)
    rw [ha]
    have c2 := CIRC_CNT_eq h (t + r - size) size hh (by omega)
    rw [c2, hc]
    refine ⟨by omega, ?_⟩
    split_ifs at hr ⊢ <;> omega

/-- The inner byte-copy loop of fwk_ec_console_log_work:
while (idx < ret && ec_buffer[idx] != 0 && buf_space > 0) copy one byte,
advance head, consume one slot of buf_space.  The received bytes are the
list data (so idx < ret corresponds to the list being non-empty); the
returned pair is the updated buffer and the remaining buf_space. -/
def appendBytes (size : Nat) (cb : CircBuf) : List Nat → Nat → CircBuf × Nat
  | [], space => (cb, space)
  | b :: rest, space =>
    if b ≠ 0 ∧ 0 < space then
      appendBytes size
        ⟨fun j => if j = cb.head then b else cb.buf j,
         CIRC_ADD cb.head size 1, cb.tail⟩ rest (space - 1)
    else (cb, space)

/-- Bookkeeping facts about the byte-copy loop when started with the true
free-slot count (as fwk_ec_console_log_work does): cursors stay in range,
the tail is untouched, the remaining space is again the true free count,
and exactly min(usable-prefix-length, space) bytes are accepted. -/
theorem appendBytes_spec (size : Nat) (data : List Nat) :
    ∀ cb space, cb.head < size → cb.tail < size →
    space = CIRC_SPACE cb.head cb.tail size →
    (appendBytes size cb data space).1.head < size ∧
    (appendBytes size cb data space).1.tail = cb.tail ∧
    (appendBytes size cb data space).2
      = CIRC_SPACE (appendBytes size cb data space).1.head
          (appendBytes size cb data space).1.tail size ∧
    (appendBytes size cb data space).2 ≤ space ∧
    space - (appendBytes size cb data space).2
      = min (data.takeWhile (fun b => b != 0)).length space ∧
    CIRC_CNT (appendBytes size cb data space).1.head
        (appendBytes size cb data space).1.tail size
      = CIRC_CNT cb.head cb.tail size
        + (space - (appendBytes size cb data space).2) := by
  induction data with
  | nil =>
    intro cb space hh ht hsp
    refine ⟨hh, rfl, hsp, le_refl _, ?_, ?_⟩
    · simp [appendBytes]
    · simp [appendBytes]
  | cons b rest ih =>
    intro cb space hh ht hsp
    by_cases hb : b ≠ 0 ∧ 0 < space
    · have hs0 : 0 < CIRC_SPACE cb.head cb.tail size := by omega
      obtain ⟨w1, w2, w3⟩ := write_step size cb.head cb.tail hh ht hs0
      have ih2 := ih ⟨fun j => if j = cb.head then b else cb.buf j,
          CIRC_ADD cb.head size 1, cb.tail⟩ (space - 1) w1 ht (by
        dsimp only
        omega)
      dsimp only at ih2
      simp only [appendBytes, if_pos hb]
      obtain ⟨g1, g2, g3, g4, g5, g6⟩ := ih2
      have hbne : (b != 0) = true := by
        simp only [bne_iff_ne]
        exact hb.1
      refine ⟨g1, g2, g3, by omega, ?_, by omega⟩
      simp only [List.takeWhile_cons, hbne, if_true, List.length_cons]
      omega
    · simp only [appendBytes, if_neg hb]
      refine ⟨hh, by trivial, hsp, by omega, ?_, by omega⟩
      rcases not_and_or.mp hb with hb1 | hb2
      · have hbz : b = 0 := not_not.mp hb1
        subst hbz
        simp
      · have hz : space = 0 := by omega
        simp [hz]

/-- Logical contents of the ring buffer: the valid bytes in FIFO order,
starting at tail and wrapping at the physical end of the storage. -/
def contentsN (cb : CircBuf) : List Nat :=
  (List.range (CIRC_CNT cb.head cb.tail LOG_SIZE)).map
    fun i => cb.buf ((cb.tail + i) % LOG_SIZE)

theorem contentsN_length (cb : CircBuf) :
    (contentsN cb).length = CIRC_CNT cb.head cb.tail LOG_SIZE := by
  simp [contentsN]

/-- A logical index strictly below the valid count never lands on head. -/
theorem idx_ne (h t i : Nat) (hh : h < LOG_SIZE) (ht : t < LOG_SIZE)
    (hi : i < CIRC_CNT h t LOG_SIZE) : (t + i) % LOG_SIZE ≠ h := by
  have hc := CIRC_CNT_eq h t LOG_SIZE hh (by omega)
  have hN : LOG_SIZE = 16384 := rfl
  have hm := mod_two_intervals (t + i) LOG_SIZE (by split_ifs at hc <;> omega)
  rw [hm]
  split_ifs at hc ⊢ <;> omega

/-- The logical index equal to the valid count lands exactly on head. -/
theorem idx_last (h t : Nat) (hh : h < LOG_SIZE) (ht : t < LOG_SIZE) :
    (t + CIRC_CNT h t LOG_SIZE) % LOG_SIZE = h := by
  have hc := CIRC_CNT_eq h t LOG_SIZE hh (by omega)
  have hN : LOG_SIZE = 16384 := rfl
  have hm := mod_two_intervals (t + CIRC_CNT h t LOG_SIZE) LOG_SIZE
    (by split_ifs at hc <;> omega)
  rw [hm]
  split_ifs at hc ⊢ <;> omega

/-- Writing one byte at head and advancing head appends that byte to the
logical contents. -/
theorem writeByte_contents (cb : CircBuf) (b : Nat) (hh : cb.head < LOG_SIZE)
    (ht : cb.tail < LOG_SIZE) (hs : 0 < CIRC_SPACE cb.head cb.tail LOG_SIZE) :
    contentsN ⟨fun j => if j = cb.head then b else cb.buf j,
      CIRC_ADD cb.head LOG_SIZE 1, cb.tail⟩ = contentsN cb ++ [b] := by
  obtain ⟨w1, w2, w3⟩ := write_step LOG_SIZE cb.head cb.tail hh ht hs
  simp only [contentsN]
  rw [w2, List.range_succ, List.map_append]
  congr 1
  · apply List.map_congr_left
    intro i hi
    have hi2 : i < CIRC_CNT cb.head cb.tail LOG_SIZE := List.mem_range.mp hi
    have hne := idx_ne cb.head cb.tail i hh ht hi2
    simp only [if_neg hne]
  · simp only [List.map_cons, List.map_nil]
    rw [idx_last cb.head cb.tail hh ht]
    simp

/-- The byte-copy loop appends exactly the received bytes to the logical
contents whenever they are all non-zero and fit in the free space. -/
theorem appendBytes_contents (data : List Nat) :
    ∀ cb space, cb.head < LOG_SIZE → cb.tail < LOG_SIZE →
    space = CIRC_SPACE cb.head cb.tail LOG_SIZE →
    (∀ b ∈ data, b ≠ 0) → data.length ≤ space →
    contentsN (appendBytes LOG_SIZE cb data space).1 = contentsN cb ++ data := by
  induction data with
  | nil =>
    intro cb space hh ht hsp hz hlen
    simp [appendBytes]
  | cons b rest ih =>
    intro cb space hh ht hsp hz hlen
    have hlen2 : rest.length + 1 ≤ space := by
      simpa using hlen
    have hb : b ≠ 0 ∧ 0 < space := ⟨hz b (by simp), by omega⟩
    simp only [appendBytes, if_pos hb]
    obtain ⟨w1, w2, w3⟩ := write_step LOG_SIZE cb.head cb.tail hh ht (by omega)
    rw [ih ⟨fun j => if j = cb.head then b else cb.buf j,
          CIRC_ADD cb.head LOG_SIZE 1, cb.tail⟩ (space - 1) w1 ht
        (by
          show space - 1 = CIRC_SPACE (CIRC_ADD cb.head LOG_SIZE 1) cb.tail LOG_SIZE
          omega)
        (fun x hm => hz x (List.mem_cons_of_mem _ hm))
        (by omega)]
    rw [writeByte_contents cb b hh ht (by omega)]
    simp

/-- The bytes copied out by one read (a linear copy from cb->buf + tail of
r = min(CIRC_CNT_TO_END, count) bytes) are the first r logical bytes. -/
theorem read_take (cb : CircBuf) (r : Nat) (hh : cb.head < LOG_SIZE)
    (ht : cb.tail < LOG_SIZE) (hr1 : r ≤ CIRC_CNT cb.head cb.tail LOG_SIZE)
    (hr2 : cb.tail + r ≤ LOG_SIZE) :
    ((List.range r).map fun i => cb.buf (cb.tail + i)) = (contentsN cb).take r := by
  simp only [contentsN]
  rw [← List.map_take, List.take_range, min_eq_left hr1]
  apply List.map_congr_left
  intro i hi
  have hi2 : i < r := List.mem_range.mp hi
  rw [Nat.mod_eq_of_lt (by omega)]

/-- Advancing the tail by r drops the first r logical bytes. -/
theorem read_drop (cb : CircBuf) (r : Nat) (hh : cb.head < LOG_SIZE)
    (ht : cb.tail < LOG_SIZE) (hr1 : r ≤ CIRC_CNT cb.head cb.tail LOG_SIZE) :
    contentsN ⟨cb.buf, cb.head, CIRC_ADD cb.tail LOG_SIZE r⟩
      = (contentsN cb).drop r := by
  have hN : LOG_SIZE = 16384 := rfl
  have hcl := CIRC_CNT_le cb.head cb.tail LOG_SIZE hh ht
  have hrs : r ≤ LOG_SIZE := by omega
  obtain ⟨d1, d2⟩ := drain_step LOG_SIZE cb.head cb.tail r hh ht hr1
  simp only [contentsN]
  rw [d2, ← List.map_drop]
  have hsplit : CIRC_CNT cb.head cb.tail LOG_SIZE
      = r + (CIRC_CNT cb.head cb.tail LOG_SIZE - r) := by omega
  conv_rhs => rw [hsplit, List.range_add]
  rw [List.drop_append_of_le_length (by simp)]
  have hdr : (List.range r).drop r = [] := by simp
  rw [hdr, List.nil_append, List.map_map]
  apply List.map_congr_left
  intro i hi
  have hi2 : i < CIRC_CNT cb.head cb.tail LOG_SIZE - r := by
    have := List.mem_range.mp hi
    omega
  simp only [Function.comp]
  congr 1
  have hta := CIRC_ADD_eq cb.tail LOG_SIZE r ht hrs
  have hm1 := mod_two_intervals (CIRC_ADD cb.tail LOG_SIZE r + i) LOG_SIZE
    (by rw [hta]; split_ifs <;> omega)
  have hm2 := mod_two_intervals (cb.tail + (r + i)) LOG_SIZE (by omega)
  rw [hm1, hm2, hta]
  split_ifs <;> omega

/-- Result of one invocation of the log-poll work function: the updated
buffer, the sticky dev_info_once flag, how many times the dropped-logs
diagnostic was printed, how many bytes were copied into the buffer, and how
many EC_CMD_CONSOLE_READ commands were issued. -/
structure LoopOut where
  cb : CircBuf
  once : Bool
  emitted : Nat
  written : Nat
  reads : Nat

/-- One EC_CMD_CONSOLE_READ transfer outcome: either a negative transport
status, or the ret received bytes (the list). -/
abbrev EcRead := Except Int (List Nat)

/-- The while(1) loop of fwk_ec_console_log_work.  buf_space is checked at
the top of each iteration; a read command is then issued (consuming the
next element of the EC response schedule resps; an exhausted schedule
behaves like a ret == 0 response), a transport error or an empty or
0-terminated-at-front response breaks the loop, and otherwise the inner
byte-copy loop appends and the outer loop repeats.  dev_info_once is
modelled by the sticky once flag. -/
def logWorkLoop (cb : CircBuf) : Nat → Bool → List EcRead → LoopOut
  | 0, once, _ => ⟨cb, true, if once then 0 else 1, 0, 0⟩
  | _ + 1, once, [] => ⟨cb, once, 0, 0, 0⟩
  | _ + 1, once, .error _ :: _ => ⟨cb, once, 0, 0, 1⟩
  | _ + 1, once, .ok [] :: _ => ⟨cb, once, 0, 0, 1⟩
  | s + 1, once, .ok (b :: bs) :: rest =>
    if b = 0 then ⟨cb, once, 0, 0, 1⟩
    else
      let p := appendBytes LOG_SIZE cb (b :: bs) (s + 1)
      let o := logWorkLoop p.1 p.2 once rest
      ⟨o.cb, o.once, o.emitted, (s + 1 - p.2) + o.written, o.reads + 1⟩

/-- Result of fwk_ec_console_log_work including whether the next cycle was
rescheduled (the resched label runs unconditionally). -/
structure WorkOut where
  cb : CircBuf
  once : Bool
  emitted : Nat
  written : Nat
  reads : Nat
  resched : Bool

/-- fwk_ec_console_log_work: issue the snapshot command (outcome snap);
on transport failure goto resched with the buffer untouched; otherwise
compute buf_space = CIRC_SPACE(head, tail, LOG_SIZE) under the mutex and
run the read loop; in all cases schedule_delayed_work reschedules. -/
def fwk_ec_console_log_work (cb : CircBuf) (once : Bool) (snap : Int)
    (resps : List EcRead) : WorkOut :=
  if snap < 0 then ⟨cb, once, 0, 0, 0, true⟩
  else
    let o := logWorkLoop cb (CIRC_SPACE cb.head cb.tail LOG_SIZE) once resps
    ⟨o.cb, o.once, o.emitted, o.written, o.reads, true⟩

/-- EAGAIN errno (read would block). -/
def EAGAIN : Int := 11

/-- ERESTARTSYS, the status wait_event_interruptible reports when the sleep
is interrupted by a signal. -/
def ERESTARTSYS : Int := 512

/-- What happens at each suspension of the reader on the waitqueue: either
the sleep is interrupted by a signal, or the reader wakes and observes the
(possibly changed by the producer) buffer state. -/
inductive WaitEvent where
  | interrupted
  | wake (cb : CircBuf)

/-- Outcome of fwk_ec_console_log_read: a negative status with the buffer
state left behind, a successful copy of bytes with the updated buffer, or
still waiting because the wait schedule ran out (the reader is blocked). -/
inductive ReadResult where
  | err (e : Int) (cb : CircBuf)
  | ok (data : List Nat) (cb : CircBuf)
  | blocked (cb : CircBuf)

/-- The non-empty path of fwk_ec_console_log_read: copy
ret = min(CIRC_CNT_TO_END(head, tail, LOG_SIZE), count) bytes starting at
cb->buf + tail (a straight linear copy), then tail = CIRC_ADD(tail, ret).
copy_to_user is assumed to succeed (a faulting user buffer is out of
scope). -/
def readAvail (cb : CircBuf) (count : Nat) : ReadResult :=
  let r := min (CIRC_CNT_TO_END cb.head cb.tail LOG_SIZE) count
  .ok ((List.range r).map fun i => cb.buf (cb.tail + i))
    ⟨cb.buf, cb.head, CIRC_ADD cb.tail LOG_SIZE r⟩

/-- fwk_ec_console_log_read: while CIRC_CNT is zero, in O_NONBLOCK mode
return -EAGAIN at once; otherwise sleep on the waitqueue.  An interrupted
sleep returns the negative status from wait_event_interruptible directly;
a wake re-checks the (re-observed) buffer.  Once the buffer is non-empty,
copy out the contiguous run and advance tail. -/
def fwk_ec_console_log_read : CircBuf → Nat → Bool → List WaitEvent → ReadResult
  | cb, count, nonblock, [] =>
    if CIRC_CNT cb.head cb.tail LOG_SIZE = 0 then
      if nonblock then .err (-EAGAIN) cb else .blocked cb
    else readAvail cb count
  | cb, count, nonblock, ev :: rest =>
    if CIRC_CNT cb.head cb.tail LOG_SIZE = 0 then
      if nonblock then .err (-EAGAIN) cb
      else
        match ev with
        | .interrupted => .err (-ERESTARTSYS) cb
        | .wake cb2 => fwk_ec_console_log_read cb2 count nonblock rest
    else readAvail cb count

/-- Cursor bookkeeping for the whole read loop of one work cycle, started
(as in the source) with buf_space equal to the true free count: head stays
in range, tail is untouched, at most buf_space bytes are written, and the
valid count grows by exactly the written bytes. -/
theorem logWorkLoop_spec (resps : List EcRead) :
    ∀ cb space once, cb.head < LOG_SIZE → cb.tail < LOG_SIZE →
    space = CIRC_SPACE cb.head cb.tail LOG_SIZE →
    (logWorkLoop cb space once resps).cb.head < LOG_SIZE ∧
    (logWorkLoop cb space once resps).cb.tail = cb.tail ∧
    (logWorkLoop cb space once resps).written ≤ space ∧
    CIRC_CNT (logWorkLoop cb space once resps).cb.head
        (logWorkLoop cb space once resps).cb.tail LOG_SIZE
      = CIRC_CNT cb.head cb.tail LOG_SIZE
        + (logWorkLoop cb space once resps).written := by
  induction resps with
  | nil =>
    intro cb space once hh ht hsp
    match space with
    | 0 => exact ⟨hh, rfl, by simp [logWorkLoop], by simp [logWorkLoop]⟩
    | s + 1 => exact ⟨hh, rfl, by simp [logWorkLoop], by simp [logWorkLoop]⟩
  | cons r rest ih =>
    intro cb space once hh ht hsp
    match space, r with
    | 0, _ =>
      exact ⟨hh, rfl, by simp [logWorkLoop], by simp [logWorkLoop]⟩
    | s + 1, .error e =>
      exact ⟨hh, rfl, by simp [logWorkLoop], by simp [logWorkLoop]⟩
    | s + 1, .ok [] =>
      exact ⟨hh, rfl, by simp [logWorkLoop], by simp [logWorkLoop]⟩
    | s + 1, .ok (b :: bs) =>
      by_cases hb : b = 0
      · simp only [logWorkLoop, if_pos hb]
        exact ⟨hh, by simp, by simp, by simp⟩
      · simp only [logWorkLoop, if_neg hb]
        obtain ⟨a1, a2, a3, a4, a5, a6⟩ :=
          appendBytes_spec LOG_SIZE (b :: bs) cb (s + 1) hh ht hsp
        obtain ⟨i1, i2, i3, i4⟩ :=
          ih (appendBytes LOG_SIZE cb (b :: bs) (s + 1)).1
            (appendBytes LOG_SIZE cb (b :: bs) (s + 1)).2 once a1 (a2 ▸ ht)
            (by rw [a3, a2])
        refine ⟨i1, by rw [i2, a2], by omega, ?_⟩
        rw [i4, a6]
        omega

/-- Whole-cycle bookkeeping for fwk_ec_console_log_work: on any snapshot
outcome and any EC response schedule, head and tail stay in range, tail is
not moved by the producer, the valid count grows by exactly the number of
bytes written, that number is bounded by the free space at cycle start,
and the next cycle is always rescheduled. -/
theorem fwk_ec_console_log_work_spec (cb : CircBuf) (once : Bool) (snap : Int)
    (resps : List EcRead) (hh : cb.head < LOG_SIZE) (ht : cb.tail < LOG_SIZE) :
    (fwk_ec_console_log_work cb once snap resps).cb.head < LOG_SIZE ∧
    (fwk_ec_console_log_work cb once snap resps).cb.tail = cb.tail ∧
    (fwk_ec_console_log_work cb once snap resps).written
      ≤ CIRC_SPACE cb.head cb.tail LOG_SIZE ∧
    CIRC_CNT (fwk_ec_console_log_work cb once snap resps).cb.head
        (fwk_ec_console_log_work cb once snap resps).cb.tail LOG_SIZE
      = CIRC_CNT cb.head cb.tail LOG_SIZE
        + (fwk_ec_console_log_work cb once snap resps).written ∧
    (fwk_ec_console_log_work cb once snap resps).resched = true := by
  by_cases hs : snap < 0
  · simp only [fwk_ec_console_log_work, if_pos hs]
    refine ⟨hh, by simp, by simp, by simp, by simp⟩
  · simp only [fwk_ec_console_log_work, if_neg hs]
    obtain ⟨i1, i2, i3, i4⟩ := logWorkLoop_spec resps cb
      (CIRC_SPACE cb.head cb.tail LOG_SIZE) once hh ht rfl
    exact ⟨i1, i2, i3, i4, by trivial⟩

/-- The copied amount is bounded by the valid count. -/
theorem read_r_le_cnt (h t n : Nat) (hh : h < LOG_SIZE) (ht : t < LOG_SIZE) :
    min (CIRC_CNT_TO_END h t LOG_SIZE) n ≤ CIRC_CNT h t LOG_SIZE := by
  rw [CIRC_CNT_TO_END_eq h t LOG_SIZE hh ht]
  omega

/-- The copied span never crosses the physical end of the storage. -/
theorem read_r_le_end (h t n : Nat) (hh : h < LOG_SIZE) (ht : t < LOG_SIZE) :
    t + min (CIRC_CNT_TO_END h t LOG_SIZE) n ≤ LOG_SIZE := by
  rw [CIRC_CNT_TO_END_eq h t LOG_SIZE hh ht]
  omega

/-- On a non-empty buffer and a positive request the copied amount is
strictly positive. -/
theorem read_r_pos (h t n : Nat) (hh : h < LOG_SIZE) (ht : t < LOG_SIZE)
    (hne : CIRC_CNT h t LOG_SIZE ≠ 0) (hn : 0 < n) :
    0 < min (CIRC_CNT_TO_END h t LOG_SIZE) n := by
  rw [CIRC_CNT_TO_END_eq h t LOG_SIZE hh ht]
  have hN : LOG_SIZE = 16384 := rfl
  omega

/-- One step of the system trace: either one full acquisition cycle with
its snapshot outcome and EC response schedule, or one reader call (with a
requested byte count and the O_NONBLOCK flag; an empty wait schedule, so a
blocking read on an empty buffer simply stays blocked). -/
inductive SysOp where
  | cyc (snap : Int) (resps : List EcRead)
  | readOp (n : Nat) (nonblock : Bool)

/-- Accumulated outcome of a system trace: final buffer, final sticky
diagnostic flag, total bytes appended by cycles and total bytes drained by
readers. -/
structure SysOut where
  cb : CircBuf
  once : Bool
  appended : Nat
  drained : Nat

/-- Run a list of system steps against the shared ring buffer, threading
the buffer state and the one-shot diagnostic flag and summing the bytes
appended and drained. -/
def runSys : CircBuf → Bool → List SysOp → SysOut
  | cb, once, [] => ⟨cb, once, 0, 0⟩
  | cb, once, .cyc snap resps :: rest =>
    let o := fwk_ec_console_log_work cb once snap resps
    let q := runSys o.cb o.once rest
    ⟨q.cb, q.once, o.written + q.appended, q.drained⟩
  | cb, once, .readOp n nb :: rest =>
    match fwk_ec_console_log_read cb n nb [] with
    | .ok out cb2 =>
      let q := runSys cb2 once rest
      ⟨q.cb, q.once, q.appended, out.length + q.drained⟩
    | .err _ cb2 => runSys cb2 once rest
    | .blocked cb2 => runSys cb2 once rest

/-- Invariant preservation for a whole system trace, generalized over the
start state. -/
theorem runSys_spec (ops : List SysOp) :
    ∀ cb once, cb.head < LOG_SIZE → cb.tail < LOG_SIZE →
    (runSys cb once ops).cb.head < LOG_SIZE ∧
    (runSys cb once ops).cb.tail < LOG_SIZE ∧
    (runSys cb once ops).appended + CIRC_CNT cb.head cb.tail LOG_SIZE
      = (runSys cb once ops).drained
        + CIRC_CNT (runSys cb once ops).cb.head (runSys cb once ops).cb.tail
            LOG_SIZE := by
  induction ops with
  | nil =>
    intro cb once hh ht
    exact ⟨hh, ht, by simp [runSys]⟩
  | cons op rest ih =>
    intro cb once hh ht
    match op with
    | .cyc snap resps =>
      obtain ⟨w1, w2, w3, w4, w5⟩ :=
        fwk_ec_console_log_work_spec cb once snap resps hh ht
      obtain ⟨i1, i2, i3⟩ := ih (fwk_ec_console_log_work cb once snap resps).cb
        (fwk_ec_console_log_work cb once snap resps).once w1 (by rw [w2]; exact ht)
      simp only [runSys]
      refine ⟨i1, i2, ?_⟩
      omega
    | .readOp n nb =>
      simp only [runSys, fwk_ec_console_log_read]
      by_cases hc : CIRC_CNT cb.head cb.tail LOG_SIZE = 0
      · rw [if_pos hc]
        match nb with
        | true =>
          simp only [if_pos rfl]
          exact ih cb once hh ht
        | false =>
          simp only [Bool.false_eq_true, if_neg]
          exact ih cb once hh ht
      · rw [if_neg hc]
        simp only [readAvail]
        have hr1 := read_r_le_cnt cb.head cb.tail n hh ht
        obtain ⟨d1, d2⟩ := drain_step LOG_SIZE cb.head cb.tail
          (min (CIRC_CNT_TO_END cb.head cb.tail LOG_SIZE) n) hh ht hr1
        obtain ⟨i1, i2, i3⟩ := ih
          ⟨cb.buf, cb.head,
            CIRC_ADD cb.tail LOG_SIZE (min (CIRC_CNT_TO_END cb.head cb.tail LOG_SIZE) n)⟩
          once hh d1
        refine ⟨i1, i2, ?_⟩
        simp only [List.length_map, List.length_range] at *
        rw [d2] at i3
        omega

/-- C1: for every sequence of appends (acquisition-cycle byte copies) and
drains (reads), head and tail stay in [0, LOG_SIZE); the valid-byte count
(head - tail) mod LOG_SIZE equals bytes appended minus bytes drained and
never exceeds LOG_SIZE - 1; and the buffer is empty if and only if
head == tail. -/
theorem claim_C1 (ops : List SysOp) :
    (runSys logInit false ops).cb.head < LOG_SIZE ∧
    (runSys logInit false ops).cb.tail < LOG_SIZE ∧
    (runSys logInit false ops).appended
      = (runSys logInit false ops).drained
        + CIRC_CNT (runSys logInit false ops).cb.head
            (runSys logInit false ops).cb.tail LOG_SIZE ∧
    CIRC_CNT (runSys logInit false ops).cb.head
        (runSys logInit false ops).cb.tail LOG_SIZE ≤ LOG_SIZE - 1 ∧
    (CIRC_CNT (runSys logInit false ops).cb.head
        (runSys logInit false ops).cb.tail LOG_SIZE = 0
      ↔ (runSys logInit false ops).cb.head = (runSys logInit false ops).cb.tail) := by
  obtain ⟨i1, i2, i3⟩ := runSys_spec ops logInit false (by decide) (by decide)
  have h0 : CIRC_CNT logInit.head logInit.tail LOG_SIZE = 0 := by decide
  rw [h0] at i3
  exact ⟨i1, i2, by omega,
    CIRC_CNT_le _ _ _ i1 i2,
    CIRC_CNT_eq_zero_iff _ _ _ i1 i2⟩

/-- The dev_info_once flag is monotone across the read loop, and the
dropped-logs diagnostic is printed exactly when the loop reaches the
space-exhausted check with the flag still clear. -/
theorem logWorkLoop_once_spec (resps : List EcRead) :
    ∀ cb space once,
    (once = true → (logWorkLoop cb space once resps).once = true) ∧
    (logWorkLoop cb space once resps).emitted
      = if once = false ∧ (logWorkLoop cb space once resps).once = true
        then 1 else 0 := by
  induction resps with
  | nil =>
    intro cb space once
    match space with
    | 0 => cases once <;> simp [logWorkLoop]
    | s + 1 => cases once <;> simp [logWorkLoop]
  | cons r rest ih =>
    intro cb space once
    match space, r with
    | 0, _ => cases once <;> simp [logWorkLoop]
    | s + 1, .error e => cases once <;> simp [logWorkLoop]
    | s + 1, .ok [] => cases once <;> simp [logWorkLoop]
    | s + 1, .ok (b :: bs) =>
      by_cases hb : b = 0
      · cases once <;> simp [logWorkLoop, hb]
      · simp only [logWorkLoop, if_neg hb]
        exact ih _ _ once

/-- The same one-shot characterization lifted to a whole work invocation. -/
theorem work_once_spec (cb : CircBuf) (once : Bool) (snap : Int)
    (resps : List EcRead) :
    (once = true → (fwk_ec_console_log_work cb once snap resps).once = true) ∧
    (fwk_ec_console_log_work cb once snap resps).emitted
      = if once = false ∧ (fwk_ec_console_log_work cb once snap resps).once = true
        then 1 else 0 := by
  by_cases hs : snap < 0
  · simp only [fwk_ec_console_log_work, if_pos hs]
    cases once <;> simp
  · simp only [fwk_ec_console_log_work, if_neg hs]
    exact logWorkLoop_once_spec resps cb _ once

/-- A sequence of acquisition cycles (each with its snapshot outcome and EC
response schedule): final buffer, final sticky flag, and the total number
of times the dropped-logs diagnostic was printed. -/
def runCycles : CircBuf → Bool → List (Int × List EcRead) → CircBuf × Bool × Nat
  | cb, once, [] => (cb, once, 0)
  | cb, once, c :: rest =>
    let o := fwk_ec_console_log_work cb once c.1 c.2
    let q := runCycles o.cb o.once rest
    (q.1, q.2.1, o.emitted + q.2.2)

/-- Across any run of cycles the diagnostic total is 0 when the flag starts
set, and otherwise is 1 exactly when some cycle saturated (final flag set). -/
theorem runCycles_emitted (cycles : List (Int × List EcRead)) :
    ∀ cb once,
    (once = true → (runCycles cb once cycles).2.1 = true
      ∧ (runCycles cb once cycles).2.2 = 0) ∧
    (runCycles cb once cycles).2.2
      = if once = false ∧ (runCycles cb once cycles).2.1 = true
        then 1 else 0 := by
  induction cycles with
  | nil =>
    intro cb once
    cases once <;> simp [runCycles]
  | cons c rest ih =>
    intro cb once
    obtain ⟨m1, m2⟩ := work_once_spec cb once c.1 c.2
    obtain ⟨i1, i2⟩ := ih (fwk_ec_console_log_work cb once c.1 c.2).cb
      (fwk_ec_console_log_work cb once c.1 c.2).once
    simp only [runCycles]
    cases honce : once with
    | true =>
      rw [honce] at m1 m2 i1 i2
      have hm := m1 rfl
      obtain ⟨j1, j2⟩ := i1 (by rw [hm])
      rw [hm] at m2 i2
      constructor
      · intro _
        exact ⟨j1, by simp at m2 i2 ⊢; omega⟩
      · simp at m2 i2 ⊢
        omega
    | false =>
      rw [honce] at m1 m2 i1 i2
      constructor
      · intro hfalse
        simp at hfalse
      · rcases Bool.eq_false_or_eq_true
          (fwk_ec_console_log_work cb false c.1 c.2).once with hwo | hwo
        · simp only [hwo] at m2 i1 i2 ⊢
          obtain ⟨j1, j2⟩ := i1 trivial
          rw [j1, j2]
          simp at m2 ⊢
          omega
        · simp only [hwo] at m2 i2 ⊢
          simp at m2
          rw [m2]
          simpa using i2

/-- C7: across all acquisition cycles in one process lifetime the
dropped-logs diagnostic is emitted at most once: starting with the sticky
flag clear, the total over any run of cycles is 1 exactly when some cycle
found free space exhausted (0 otherwise); with the flag already set (a
previous saturation) no cycle ever fires it again; a cycle that reaches
the saturation check with the flag clear fires it and stops immediately
(no reads, no writes); and the cycle is still rescheduled, not treated as
an error. -/
theorem claim_C7 (cycles : List (Int × List EcRead)) (cb : CircBuf) (once : Bool)
    (snap : Int) (resps : List EcRead) :
    (runCycles cb false cycles).2.2 ≤ 1 ∧
    (runCycles cb false cycles).2.2
      = (if (runCycles cb false cycles).2.1 = true then 1 else 0) ∧
    (runCycles cb true cycles).2.2 = 0 ∧
    (fwk_ec_console_log_work cb true snap resps).emitted = 0 ∧
    (fwk_ec_console_log_work cb false snap resps).emitted
      = (if (fwk_ec_console_log_work cb false snap resps).once = true
         then 1 else 0) ∧
    logWorkLoop cb 0 once resps
      = ⟨cb, true, if once then 0 else 1, 0, 0⟩ ∧
    (fwk_ec_console_log_work cb once snap resps).resched = true := by
  obtain ⟨r1, r2⟩ := runCycles_emitted cycles cb false
  obtain ⟨t1, t2⟩ := runCycles_emitted cycles cb true
  obtain ⟨w1, w2⟩ := work_once_spec cb false snap resps
  obtain ⟨v1, v2⟩ := work_once_spec cb true snap resps
  refine ⟨?_, ?_, ?_, ?_, ?_, ?_, ?_⟩
  · rw [r2]; split <;> omega
  · rw [r2]; simp
  · exact (t1 rfl).2
  · rw [v2]; simp
  · rw [w2]; simp
  · cases resps <;> rfl
  · by_cases hs : snap < 0 <;> simp [fwk_ec_console_log_work, hs]

/-- One producer/consumer step at ring-buffer granularity: one byte-copy
append performed with the current free count (as one iteration of the
acquisition loop does), or one reader call with requested length n
(non-blocking, so it completes without waiting or fails on an empty
buffer). -/
inductive RWOp where
  | wr (data : List Nat)
  | rd (n : Nat)

/-- Accumulated outcome of a producer/consumer trace: final buffer, the
concatenation of the byte sequences handed to the appends, and the
concatenation of the bytes returned by the reads. -/
structure RWOut where
  cb : CircBuf
  appended : List Nat
  drained : List Nat

/-- Run a producer/consumer trace against the ring buffer. -/
def runRW : CircBuf → List RWOp → RWOut
  | cb, [] => ⟨cb, [], []⟩
  | cb, .wr data :: rest =>
    let q := runRW
      (appendBytes LOG_SIZE cb data (CIRC_SPACE cb.head cb.tail LOG_SIZE)).1 rest
    ⟨q.cb, data ++ q.appended, q.drained⟩
  | cb, .rd n :: rest =>
    match fwk_ec_console_log_read cb n true [] with
    | .ok out cb2 =>
      let q := runRW cb2 rest
      ⟨q.cb, q.appended, out ++ q.drained⟩
    | .err e cb2 => runRW cb2 rest
    | .blocked cb2 => runRW cb2 rest

/-- Trace wellformedness for the round-trip property: every appended byte
sequence is free of the 0 termination marker and fits in the free space at
the moment of the append. -/
def fitsRun : CircBuf → List RWOp → Bool
  | _, [] => true
  | cb, .wr data :: rest =>
    (decide (data.length ≤ CIRC_SPACE cb.head cb.tail LOG_SIZE)
        && data.all (fun b => b != 0))
      && fitsRun
        (appendBytes LOG_SIZE cb data (CIRC_SPACE cb.head cb.tail LOG_SIZE)).1 rest
  | cb, .rd n :: rest =>
    match fwk_ec_console_log_read cb n true [] with
    | .ok _ cb2 => fitsRun cb2 rest
    | .err _ cb2 => fitsRun cb2 rest
    | .blocked cb2 => fitsRun cb2 rest

/-- FIFO refinement for a well-formed trace, generalized over the start
state: the bytes drained so far, followed by what is still buffered, are
exactly the initial buffer contents followed by all appended bytes. -/
theorem runRW_spec (ops : List RWOp) :
    ∀ cb, cb.head < LOG_SIZE → cb.tail < LOG_SIZE →
    fitsRun cb ops = true →
    (runRW cb ops).cb.head < LOG_SIZE ∧
    (runRW cb ops).cb.tail < LOG_SIZE ∧
    (runRW cb ops).drained ++ contentsN (runRW cb ops).cb
      = contentsN cb ++ (runRW cb ops).appended := by
  induction ops with
  | nil =>
    intro cb hh ht hfit
    exact ⟨hh, ht, by simp [runRW]⟩
  | cons op rest ih =>
    intro cb hh ht hfit
    match op with
    | .wr data =>
      simp only [fitsRun, Bool.and_eq_true, decide_eq_true_eq] at hfit
      obtain ⟨⟨hlen, hall⟩, hrest⟩ := hfit
      have hz : ∀ b ∈ data, b ≠ 0 := by
        intro b hm
        have := List.all_eq_true.mp hall b hm
        simpa using this
      obtain ⟨a1, a2, a3, a4, a5, a6⟩ :=
        appendBytes_spec LOG_SIZE data cb
          (CIRC_SPACE cb.head cb.tail LOG_SIZE) hh ht rfl
      have hcont := appendBytes_contents data cb
        (CIRC_SPACE cb.head cb.tail LOG_SIZE) hh ht rfl hz hlen
      obtain ⟨i1, i2, i3⟩ := ih
        (appendBytes LOG_SIZE cb data (CIRC_SPACE cb.head cb.tail LOG_SIZE)).1
        a1 (by rw [a2]; exact ht) hrest
      simp only [runRW]
      refine ⟨i1, i2, ?_⟩
      rw [i3, hcont, List.append_assoc]
    | .rd n =>
      by_cases hc : CIRC_CNT cb.head cb.tail LOG_SIZE = 0
      · simp only [runRW, fitsRun, fwk_ec_console_log_read, if_pos hc,
          if_pos rfl] at hfit ⊢
        exact ih cb hh ht hfit
      · simp only [runRW, fitsRun, fwk_ec_console_log_read, if_neg hc,
          readAvail] at hfit ⊢
        have hr1 := read_r_le_cnt cb.head cb.tail n hh ht
        have hr2 := read_r_le_end cb.head cb.tail n hh ht
        obtain ⟨d1, d2⟩ := drain_step LOG_SIZE cb.head cb.tail
          (min (CIRC_CNT_TO_END cb.head cb.tail LOG_SIZE) n) hh ht hr1
        obtain ⟨i1, i2, i3⟩ := ih
          ⟨cb.buf, cb.head,
            CIRC_ADD cb.tail LOG_SIZE
              (min (CIRC_CNT_TO_END cb.head cb.tail LOG_SIZE) n)⟩
          hh d1 hfit
        refine ⟨i1, i2, ?_⟩
        rw [List.append_assoc, i3,
          read_drop cb (min (CIRC_CNT_TO_END cb.head cb.tail LOG_SIZE) n) hh ht hr1,
          read_take cb (min (CIRC_CNT_TO_END cb.head cb.tail LOG_SIZE) n) hh ht hr1 hr2,
          ← List.append_assoc, List.take_append_drop]

/-- C2: for every byte sequence delivered into the ring buffer by any
number of append operations that all fit within free space (and carry no
termination marker), the bytes returned by the reads, in order, followed
by what remains buffered, equal the appended bytes in order; in
particular, once the buffer has been fully drained (head == tail), the
concatenation of the reads equals the concatenation of the appends. -/
theorem claim_C2 (ops : List RWOp) (hfit : fitsRun logInit ops = true) :
    (runRW logInit ops).drained ++ contentsN (runRW logInit ops).cb
      = (runRW logInit ops).appended ∧
    ((runRW logInit ops).cb.head = (runRW logInit ops).cb.tail →
      (runRW logInit ops).drained = (runRW logInit ops).appended) := by
  obtain ⟨i1, i2, i3⟩ := runRW_spec ops logInit (by decide) (by decide) hfit
  have hinit : contentsN logInit = [] := by decide
  rw [hinit] at i3
  simp only [List.nil_append] at i3
  refine ⟨i3, ?_⟩
  intro heq
  have hz : CIRC_CNT (runRW logInit ops).cb.head (runRW logInit ops).cb.tail
      LOG_SIZE = 0 := (CIRC_CNT_eq_zero_iff _ _ _ i1 i2).mpr heq
  have hcz : contentsN (runRW logInit ops).cb = [] := by
    unfold contentsN
    rw [hz]
    simp
  rw [hcz, List.append_nil] at i3
  exact i3

/-- Concrete trace used to instantiate the round-trip theorem. -/
def c2ops : List RWOp := [.wr [72, 69, 76], .rd 2, .rd 100]

theorem claim_C2_witness :
    fitsRun logInit c2ops = true ∧
    (runRW logInit c2ops).drained = (runRW logInit c2ops).appended :=
  ⟨by decide, (claim_C2 c2ops (by decide)).2 (by decide)⟩

/-- C3: on a non-empty buffer a read copies out exactly
min(requested, CIRC_CNT_TO_END) bytes starting at tail, where
CIRC_CNT_TO_END is the contiguous valid run up to the physical end of the
storage; the copied span never crosses the physical end; tail advances by
exactly the copied amount; and a positive request yields a strictly
positive count. -/
theorem claim_C3 (cb : CircBuf) (n : Nat) (nonblock : Bool)
    (waits : List WaitEvent) (r : Nat)
    (hh : cb.head < LOG_SIZE) (ht : cb.tail < LOG_SIZE)
    (hne : CIRC_CNT cb.head cb.tail LOG_SIZE ≠ 0)
    (hr : r = min (CIRC_CNT_TO_END cb.head cb.tail LOG_SIZE) n) :
    fwk_ec_console_log_read cb n nonblock waits
      = .ok ((List.range r).map fun i => cb.buf (cb.tail + i))
          ⟨cb.buf, cb.head, CIRC_ADD cb.tail LOG_SIZE r⟩ ∧
    ((List.range r).map fun i => cb.buf (cb.tail + i)).length = r ∧
    CIRC_CNT_TO_END cb.head cb.tail LOG_SIZE
      = min (CIRC_CNT cb.head cb.tail LOG_SIZE) (LOG_SIZE - cb.tail) ∧
    cb.tail + r ≤ LOG_SIZE ∧
    CIRC_CNT cb.head (CIRC_ADD cb.tail LOG_SIZE r) LOG_SIZE
      = CIRC_CNT cb.head cb.tail LOG_SIZE - r ∧
    (0 < n → 0 < r) := by
  subst hr
  refine ⟨?_, by simp, CIRC_CNT_TO_END_eq cb.head cb.tail LOG_SIZE hh ht,
    read_r_le_end cb.head cb.tail n hh ht,
    (drain_step LOG_SIZE cb.head cb.tail _ hh ht
      (read_r_le_cnt cb.head cb.tail n hh ht)).2,
    fun hn => read_r_pos cb.head cb.tail n hh ht hne hn⟩
  cases waits with
  | nil => simp only [fwk_ec_console_log_read, if_neg hne]; rfl
  | cons ev rest => simp only [fwk_ec_console_log_read, if_neg hne]; rfl

/-- Concrete non-empty buffer used to instantiate the partial-read theorem. -/
def cbC3 : CircBuf := ⟨fun _ => 7, 2, 0⟩

theorem claim_C3_witness :
    CIRC_CNT cbC3.head cbC3.tail LOG_SIZE ≠ 0 ∧
    cbC3.tail + min (CIRC_CNT_TO_END cbC3.head cbC3.tail LOG_SIZE) 1 ≤ LOG_SIZE ∧
    0 < min (CIRC_CNT_TO_END cbC3.head cbC3.tail LOG_SIZE) 1 :=
  ⟨by decide,
    (claim_C3 cbC3 1 false [] _ (by decide) (by decide) (by decide) rfl).2.2.2.1,
    (claim_C3 cbC3 1 false [] _ (by decide) (by decide) (by decide) rfl).2.2.2.2.2
      (by decide)⟩

/-- C4: an append of k bytes with s free slots accepts exactly
min(k, s) bytes (the copy stops at the first of: data exhausted,
termination marker, free space zero, so in general it accepts
min(length of the marker-free prefix, s)); the valid count grows by
exactly the accepted amount and never exceeds capacity - 1, so head never
advances past tail by more than capacity - 1. -/
theorem claim_C4 (size : Nat) (cb : CircBuf) (data : List Nat) (s w : Nat)
    (hh : cb.head < size) (ht : cb.tail < size)
    (hs : s = CIRC_SPACE cb.head cb.tail size)
    (hw : w = s - (appendBytes size cb data s).2) :
    w = min (data.takeWhile (fun b => b != 0)).length s ∧
    ((∀ b ∈ data, b ≠ 0) → w = min data.length s) ∧
    CIRC_CNT (appendBytes size cb data s).1.head
        (appendBytes size cb data s).1.tail size
      = CIRC_CNT cb.head cb.tail size + w ∧
    CIRC_CNT (appendBytes size cb data s).1.head
        (appendBytes size cb data s).1.tail size ≤ size - 1 := by
  subst hw
  obtain ⟨a1, a2, a3, a4, a5, a6⟩ := appendBytes_spec size data cb s hh ht hs
  have hsum := CIRC_CNT_add_SPACE cb.head cb.tail size hh ht
  refine ⟨a5, ?_, a6, by omega⟩
  intro hz
  have hself : data.takeWhile (fun b => b != 0) = data :=
    List.takeWhile_eq_self_iff.mpr (by
      intro x hx
      simpa using hz x hx)
  rw [hself] at a5
  exact a5

/-- The scenario buffer: capacity 16, 15 usable slots, 14 already filled. -/
def cbC4 : CircBuf := ⟨fun _ => 9, 14, 0⟩

theorem claim_C4_witness :
    CIRC_SPACE cbC4.head cbC4.tail 16 = 1 ∧
    min ([1, 1, 1, 1, 1] : List Nat).length (CIRC_SPACE cbC4.head cbC4.tail 16) = 1 ∧
    CIRC_SPACE cbC4.head cbC4.tail 16
        - (appendBytes 16 cbC4 [1, 1, 1, 1, 1] (CIRC_SPACE cbC4.head cbC4.tail 16)).2
      = min ([1, 1, 1, 1, 1] : List Nat).length (CIRC_SPACE cbC4.head cbC4.tail 16) :=
  ⟨by decide, by decide,
    (claim_C4 16 cbC4 [1, 1, 1, 1, 1] _ _ (by decide) (by decide) rfl rfl).2.1
      (by decide)⟩

/-- C6: a cycle whose snapshot transfer fails (negative status) ends
immediately with the ring buffer, the diagnostic flag completely
unchanged, no read command issued, no bytes written, no diagnostic
emitted, and the next cycle still rescheduled. -/
theorem claim_C6 (cb : CircBuf) (once : Bool) (snap : Int) (resps : List EcRead)
    (hs : snap < 0) :
    fwk_ec_console_log_work cb once snap resps
      = ⟨cb, once, 0, 0, 0, true⟩ := by
  simp [fwk_ec_console_log_work, hs]

theorem claim_C6_witness :
    (-1 : Int) < 0 ∧
    fwk_ec_console_log_work logInit false (-1) [Except.ok [5, 6]]
      = ⟨logInit, false, 0, 0, 0, true⟩ :=
  ⟨by decide, claim_C6 logInit false (-1) [Except.ok [5, 6]] (by decide)⟩

/-- C8: a non-blocking read on an empty buffer returns -EAGAIN immediately
with the buffer state untouched (no bytes consumed, cursors unchanged),
never a spurious empty success. -/
theorem claim_C8 (cb : CircBuf) (count : Nat) (waits : List WaitEvent)
    (he : CIRC_CNT cb.head cb.tail LOG_SIZE = 0) :
    fwk_ec_console_log_read cb count true waits = .err (-EAGAIN) cb ∧
    (-EAGAIN : Int) < 0 := by
  refine ⟨?_, by decide⟩
  cases waits with
  | nil => simp only [fwk_ec_console_log_read, if_pos he]; rfl
  | cons ev rest => simp only [fwk_ec_console_log_read, if_pos he]; rfl

theorem claim_C8_witness :
    CIRC_CNT logInit.head logInit.tail LOG_SIZE = 0 ∧
    fwk_ec_console_log_read logInit 5 true [] = .err (-EAGAIN) logInit :=
  ⟨by decide, (claim_C8 logInit 5 [] (by decide)).1⟩

/-- C9: a blocking read whose sleep on the waitqueue is interrupted
returns -ERESTARTSYS (a status distinct from the -EAGAIN would-block
outcome), delivers no bytes, and leaves the buffer, in particular tail,
unchanged. -/
theorem claim_C9 (cb : CircBuf) (count : Nat) (rest : List WaitEvent)
    (he : CIRC_CNT cb.head cb.tail LOG_SIZE = 0) :
    fwk_ec_console_log_read cb count false (.interrupted :: rest)
      = .err (-ERESTARTSYS) cb ∧
    (-ERESTARTSYS : Int) ≠ -EAGAIN ∧
    (-ERESTARTSYS : Int) < 0 := by
  refine ⟨?_, by decide, by decide⟩
  simp only [fwk_ec_console_log_read, if_pos he]
  rfl

theorem claim_C9_witness :
    CIRC_CNT logInit.head logInit.tail LOG_SIZE = 0 ∧
    fwk_ec_console_log_read logInit 3 false [WaitEvent.interrupted]
      = .err (-ERESTARTSYS) logInit :=
  ⟨by decide, (claim_C9 logInit 3 [] (by decide)).1⟩

/-- C10: a blocking read of requested length 0 on an empty buffer does not
return immediately: it stays blocked exactly as a nonzero-length read
would, and once the buffer becomes non-empty it returns zero bytes with
head and tail unchanged. -/
theorem claim_C10 (cb cb2 : CircBuf)
    (he : CIRC_CNT cb.head cb.tail LOG_SIZE = 0)
    (hne : CIRC_CNT cb2.head cb2.tail LOG_SIZE ≠ 0)
    (ht2 : cb2.tail < LOG_SIZE) :
    fwk_ec_console_log_read cb 0 false [] = .blocked cb ∧
    fwk_ec_console_log_read cb 0 false [.wake cb2]
      = .ok [] ⟨cb2.buf, cb2.head, CIRC_ADD cb2.tail LOG_SIZE 0⟩ ∧
    CIRC_ADD cb2.tail LOG_SIZE 0 = cb2.tail := by
  refine ⟨?_, ?_, ?_⟩
  · simp only [fwk_ec_console_log_read, if_pos he]
    rfl
  · simp [fwk_ec_console_log_read, he, hne, readAvail]
  · rw [CIRC_ADD_eq cb2.tail LOG_SIZE 0 ht2 (by omega)]
    have hN : LOG_SIZE = 16384 := rfl
    split <;> omega

/-- Concrete non-empty buffer used to instantiate the zero-length-read
theorem. -/
def cbC10 : CircBuf := ⟨fun _ => 3, 1, 0⟩

theorem claim_C10_witness :
    CIRC_CNT logInit.head logInit.tail LOG_SIZE = 0 ∧
    CIRC_CNT cbC10.head cbC10.tail LOG_SIZE ≠ 0 ∧
    fwk_ec_console_log_read logInit 0 false [] = .blocked logInit :=
  ⟨by decide, by decide,
    (claim_C10 logInit cbC10 (by decide) (by decide) (by decide)).1⟩

/-- NOTIFY_DONE, the acknowledgement value a notifier callback returns. -/
def NOTIFY_DONE : Int := 0

/-- Modelled from the spec: the state of the recurring acquisition work
item (kernel delayed-work machinery, which is outside this repository).
The work is either idle, queued to run (pending), currently executing a
cycle, or currently executing with another run already queued behind it. -/
inductive DWState where
  | idle
  | pending
  | running
  | runningPending
deriving DecidableEq

/-- Modelled from the spec: mod_delayed_work(wq, work, 0) requests that the
work run immediately, bypassing its schedule: an idle or pending work item
becomes due now; a currently executing work item gets one further run
queued behind the in-flight cycle. -/
def mod_delayed_work_zero : DWState → DWState
  | .idle => .pending
  | .pending => .pending
  | .running => .runningPending
  | .runningPending => .runningPending

/-- Modelled from the spec: flush_delayed_work blocks until the work item
has fully completed: it waits out an in-flight cycle and then any queued
run.  Returns how many complete cycle executions finished before the call
returned, together with the final (idle) work state. -/
def flush_delayed_work : DWState → Nat × DWState
  | .idle => (0, .idle)
  | .pending => (1, .idle)
  | .running => (1, .idle)
  | .runningPending => (2, .idle)

/-- fwk_ec_debugfs_panic_event: if the log buffer was never allocated, do
nothing and acknowledge; otherwise force the log-poll work to run
immediately (mod_delayed_work with delay 0) and block until it finishes
(flush_delayed_work), then acknowledge.  Returns the final work state, the
number of cycle executions completed before returning, and the notifier
status. -/
def fwk_ec_debugfs_panic_event (bufAllocated : Bool) (w : DWState) :
    DWState × Nat × Int :=
  if bufAllocated then
    let w1 := mod_delayed_work_zero w
    let f := flush_delayed_work w1
    (f.2, f.1, NOTIFY_DONE)
  else (w, 0, NOTIFY_DONE)

/-- C5: a panic notification with no allocated ring buffer does nothing
and acknowledges; with a buffer it acknowledges only after at least one
forced acquisition run has fully completed; and when a cycle is already
running at notification time, the handler sees exactly two completions
before returning: the in-flight cycle and exactly one more forced cycle. -/
theorem claim_C5 : ∀ w : DWState,
    fwk_ec_debugfs_panic_event false w = (w, 0, NOTIFY_DONE) ∧
    (fwk_ec_debugfs_panic_event true w).2.2 = NOTIFY_DONE ∧
    1 ≤ (fwk_ec_debugfs_panic_event true w).2.1 ∧
    (fwk_ec_debugfs_panic_event true DWState.running).2.1 = 2 := by
  intro w
  cases w <;> exact ⟨rfl, rfl, by decide, by decide⟩
